import Mathlib

/-!
Verification of the `fero` interactive shell (src/main.cpp) against its
natural-language specification.

The C++ source is shallowly embedded below.  Strings are modelled as
`List Char`; the two-phase parser (`parse_cmd`), the longest-common-prefix
helper (`lcp_`), the line-editor transitions of `read_input`, the
redirection plumbing of `apply_redirection` / `restore_io` / `run_builtin`,
and the argument parsing of the `kill` builtin are each translated directly
from the source.  Definitions whose doc comment says so are instead
transcriptions of the specification's words, used to compare the code
against the spec.
-/

namespace Fero

/-- C `isspace` on the ASCII characters (C locale), as used by
`parse_cmd`'s tokenizer via `isspace(ch)`. -/
def isspaceC (c : Char) : Bool :=
  c = ' ' || c = '\t' || c = '\n' || c = '\x0b' || c = '\x0c' || c = '\r'

/-- C `isprint` on ASCII (C locale): the printable bytes 0x20..0x7e. -/
def isprintC (c : Char) : Bool :=
  0x20 ≤ c.toNat && c.toNat ≤ 0x7e

/-- The test `ch == '\'' || ch == '"'` from the tokenizer loop of
`parse_cmd` (src/main.cpp line 213). -/
def isQuoteC (c : Char) : Bool :=
  c = '\'' || c = '"'

/-- The tokenizer loop of `parse_cmd` (src/main.cpp lines 212-230).
State: the remaining input, `current`, `in_quotes`, `quote_char`.
Returns the list of tokens pushed onto `args`, including the final
`if (!current.empty()) args.push_back(current)`. -/
def tokenizeAux : List Char → List Char → Bool → Char → List (List Char)
  | [], cur, _, _ => if cur = [] then [] else [cur]
  | ch :: rest, cur, inq, qc =>
    if isQuoteC ch then
      if inq = true ∧ ch = qc then tokenizeAux rest cur false qc
      else if inq = false then tokenizeAux rest cur true ch
      else tokenizeAux rest (cur ++ [ch]) inq qc
    else if isspaceC ch = true ∧ inq = false then
      if cur = [] then tokenizeAux rest cur inq qc
      else cur :: tokenizeAux rest [] inq qc
    else tokenizeAux rest (cur ++ [ch]) inq qc

/-- Tokenization of a whole line: the first pass of `parse_cmd`,
started with empty `current`, `in_quotes = false`, `quote_char = '\0'`. -/
def tokenize (s : List Char) : List (List Char) :=
  tokenizeAux s [] false '\x00'

/-- The `Command` structure of src/main.cpp lines 25-35. -/
structure Command where
  args : List (List Char)
  redirect_stdout : Bool
  stdout_file : List Char
  append_stdout : Bool
  redirect_stderr : Bool
  stderr_file : List Char
  append_stderr : Bool
deriving DecidableEq, Repr

/-- The default-initialized `Command cmd;` of src/main.cpp line 232. -/
def Command.init : Command :=
  ⟨[], false, [], false, false, [], false⟩

/-- The redirection-extraction loop of `parse_cmd`
(src/main.cpp lines 234-266), translated with the `i++` skip of the
consumed target expressed as recursion on the tail of the tail. -/
def redirPass : List (List Char) → Command → Command
  | [], cmd => cmd
  | t :: rest, cmd =>
    if t = ['>'] ∨ t = ['1', '>'] then
      match rest with
      | [] => cmd
      | u :: rest2 =>
        redirPass rest2
          { cmd with stdout_file := u, redirect_stdout := true, append_stdout := false }
    else if t = ['>', '>'] ∨ t = ['1', '>', '>'] then
      match rest with
      | [] => cmd
      | u :: rest2 =>
        redirPass rest2
          { cmd with stdout_file := u, redirect_stdout := true, append_stdout := true }
    else if t = ['2', '>'] then
      match rest with
      | [] => cmd
      | u :: rest2 =>
        redirPass rest2
          { cmd with stderr_file := u, redirect_stderr := true, append_stderr := false }
    else if t = ['2', '>', '>'] then
      match rest with
      | [] => cmd
      | u :: rest2 =>
        redirPass rest2
          { cmd with stderr_file := u, redirect_stderr := true, append_stderr := true }
    else
      redirPass rest { cmd with args := cmd.args ++ [t] }

/-- The redirection pass run on a token list from the initial `Command`. -/
def parseTokens (ts : List (List Char)) : Command :=
  redirPass ts Command.init

/-- `parse_cmd` (src/main.cpp lines 206-269): tokenize, then extract
redirections. -/
def parse_cmd (s : List Char) : Command :=
  parseTokens (tokenize s)

/-- A token is one of the six redirection operators recognized by the
second pass of `parse_cmd`. -/
def IsRedirOp (t : List Char) : Prop :=
  (t = ['>'] ∨ t = ['1', '>']) ∨ (t = ['>', '>'] ∨ t = ['1', '>', '>']) ∨
    t = ['2', '>'] ∨ t = ['2', '>', '>']

instance (t : List Char) : Decidable (IsRedirOp t) := by
  unfold IsRedirOp; infer_instance

/-- The tokens that survive the redirection pass into `Command.args`:
a recognized operator is dropped together with the token following it
(a trailing operator is dropped alone); every other token is kept. -/
def keptArgs : List (List Char) → List (List Char)
  | [] => []
  | [t] => if IsRedirOp t then [] else [t]
  | t :: u :: rest2 =>
    if IsRedirOp t then keptArgs rest2 else t :: keptArgs (u :: rest2)

/-- The field update a recognized operator `t` with target `u` performs
in the redirection pass. -/
def opSet (t u : List Char) (cmd : Command) : Command :=
  if t = ['>'] ∨ t = ['1', '>'] then
    { cmd with stdout_file := u, redirect_stdout := true, append_stdout := false }
  else if t = ['>', '>'] ∨ t = ['1', '>', '>'] then
    { cmd with stdout_file := u, redirect_stdout := true, append_stdout := true }
  else if t = ['2', '>'] then
    { cmd with stderr_file := u, redirect_stderr := true, append_stderr := false }
  else
    { cmd with stderr_file := u, redirect_stderr := true, append_stderr := true }

/-- Modelled from the spec: a token list consisting of nothing but
redirection operators and their (consumed) targets: each operator may
consume the single token after it. -/
def onlyRedirOps : List (List Char) → Bool
  | [] => true
  | [t] => decide (IsRedirOp t)
  | t :: _ :: rest2 => decide (IsRedirOp t) && onlyRedirOps rest2

/-- Joining a token list with single spaces (the rejoining operation the
spec's round-trip property speaks about). -/
def joinSpace : List (List Char) → List Char
  | [] => []
  | [t] => t
  | t :: u :: ts => t ++ ' ' :: joinSpace (u :: ts)

/-- The space-prefixed join used to reason about a token list that, if
non-empty, is separated from a preceding token by one space. -/
def sepJoin (ts : List (List Char)) : List Char :=
  if ts = [] then [] else ' ' :: joinSpace ts

/-- Modelled from the spec: the line content with the structural quote
characters stripped and everything else (including all whitespace) kept.
Same quote-state machine as the tokenizer. -/
def stripQuotesAux : List Char → Bool → Char → List Char
  | [], _, _ => []
  | ch :: rest, inq, qc =>
    if isQuoteC ch then
      if inq = true ∧ ch = qc then stripQuotesAux rest false qc
      else if inq = false then stripQuotesAux rest true ch
      else ch :: stripQuotesAux rest inq qc
    else ch :: stripQuotesAux rest inq qc

/-- Modelled from the spec: quote characters stripped, nothing else. -/
def stripQuotes (s : List Char) : List Char :=
  stripQuotesAux s false '\x00'

/-- Modelled from the spec (amended round-trip): the line content with
structural quote characters stripped, each maximal run of unquoted
whitespace collapsed to a single space, and leading/trailing unquoted
whitespace removed.  `pend` records that unquoted whitespace is pending,
`em` that at least one character has been emitted. -/
def squashAux : List Char → Bool → Char → Bool → Bool → List Char
  | [], _, _, _, _ => []
  | ch :: rest, inq, qc, pend, em =>
    if isQuoteC ch then
      if inq = true ∧ ch = qc then squashAux rest false qc pend em
      else if inq = false then squashAux rest true ch pend em
      else (if pend = true ∧ em = true then [' '] else []) ++ ch :: squashAux rest inq qc false true
    else if isspaceC ch = true ∧ inq = false then
      squashAux rest inq qc true em
    else (if pend = true ∧ em = true then [' '] else []) ++ ch :: squashAux rest inq qc false true

/-- Modelled from the spec: see `squashAux`. -/
def strippedCollapsed (s : List Char) : List Char :=
  squashAux s false '\x00' false false

/-- The quote-state of the tokenizer after consuming the line; a line has
balanced quotes when this is `false`. -/
def inQuotesAfter : List Char → Bool → Char → Bool
  | [], inq, _ => inq
  | ch :: rest, inq, qc =>
    if isQuoteC ch then
      if inq = true ∧ ch = qc then inQuotesAfter rest false qc
      else if inq = false then inQuotesAfter rest true ch
      else inQuotesAfter rest inq qc
    else inQuotesAfter rest inq qc

/-- A line with balanced quotes: the tokenizer's quote state is closed at
the end of the line. -/
def BalancedLine (s : List Char) : Prop :=
  inQuotesAfter s false '\x00' = false

instance (s : List Char) : Decidable (BalancedLine s) := by
  unfold BalancedLine; infer_instance

/-- A line consisting only of printable characters. -/
def PrintableLine (s : List Char) : Prop :=
  ∀ c ∈ s, isprintC c = true

instance (s : List Char) : Decidable (PrintableLine s) := by
  unfold PrintableLine; infer_instance

/-- The inner loop of `lcp_` (src/main.cpp lines 116-121): the longest
common prefix of two strings. -/
def common2 : List Char → List Char → List Char
  | a :: as, b :: bs => if a = b then a :: common2 as bs else []
  | _, _ => []

/-- `lcp_` (src/main.cpp lines 111-126).  The early `break` when the
running prefix becomes empty is dropped: `common2 [] b = []`, so folding
on is semantically identical. -/
def lcp_ : List (List Char) → List Char
  | [] => []
  | s :: rest => rest.foldl common2 s

/-- The line-editor state of `read_input` (src/main.cpp lines 129-130):
the `input` string and the `cursor` index. -/
structure EditState where
  buf : List Char
  cursor : Nat
deriving DecidableEq, Repr

/-- The decoded key events driving one iteration of the `read_input`
loop.  A `complete` event carries the `get_matches(input)` answer, the
filesystem being an external collaborator. -/
inductive Key where
  | insert (c : Char)
  | backspace
  | moveLeft
  | moveRight
  | complete (ms : List (List Char))
  | submit
deriving DecidableEq, Repr

/-- One transition of the `read_input` loop on the `(input, cursor)`
state (src/main.cpp lines 133-201); terminal redraw output is elided. -/
def edit_step (s : EditState) : Key → EditState
  | .insert c =>
    if isprintC c then
      { buf := s.buf.insertIdx s.cursor c, cursor := s.cursor + 1 }
    else s
  | .backspace =>
    if s.cursor > 0 then
      { buf := s.buf.eraseIdx (s.cursor - 1), cursor := s.cursor - 1 }
    else s
  | .moveLeft =>
    if s.cursor > 0 then { s with cursor := s.cursor - 1 } else s
  | .moveRight =>
    if s.cursor < s.buf.length then { s with cursor := s.cursor + 1 } else s
  | .complete ms =>
    if s.buf = [] then s
    else
      match ms with
      | [] => s
      | [m] => { buf := m ++ [' '], cursor := (m ++ [' ']).length }
      | _ :: _ :: _ =>
        if lcp_ ms ≠ s.buf then { buf := lcp_ ms, cursor := (lcp_ ms).length }
        else s
  | .submit => s

/-- The abstract targets of the process's standard output and standard
error streams (what `STDOUT_FILENO`/`STDERR_FILENO` currently point at). -/
structure IOSt where
  out : Int
  err : Int
deriving DecidableEq, Repr

/-- The outcomes of the `open` calls in `apply_redirection`: `none`
models `open` returning `-1`, `some fd` a successfully opened target. -/
structure Oracle where
  openOut : Option Int
  openErr : Option Int
deriving DecidableEq, Repr

/-- The result bundle of `apply_redirection` (src/main.cpp lines 49-79):
the new stream state plus the `saved_stdout`, `saved_stderr`,
`did_redirect_stdout`, `did_redirect_stderr` out-parameters. -/
structure RedirResult where
  st : IOSt
  saved_stdout : Int
  saved_stderr : Int
  did_redirect_stdout : Bool
  did_redirect_stderr : Bool
deriving DecidableEq, Repr

/-- `apply_redirection` (src/main.cpp lines 49-79).  `dup` of a stream
saves its current target; a failed `open` leaves the stream untouched
and the `did_redirect` flag `false`.  The saved values are `-1` when the
corresponding guard is not taken, as in the callers' initialization. -/
def apply_redirection (cmd : Command) (o : Oracle) (s : IOSt) : RedirResult :=
  let p :=
    if cmd.redirect_stdout = true ∧ cmd.stdout_file ≠ [] then
      match o.openOut with
      | none => (s, s.out, false)
      | some fd => ({ s with out := fd }, s.out, true)
    else (s, (-1 : Int), false)
  let q :=
    if cmd.redirect_stderr = true ∧ cmd.stderr_file ≠ [] then
      match o.openErr with
      | none => (p.1, p.1.err, false)
      | some fd => ({ p.1 with err := fd }, p.1.err, true)
    else (p.1, (-1 : Int), false)
  ⟨q.1, p.2.1, q.2.1, p.2.2, q.2.2⟩

/-- `restore_io` (src/main.cpp lines 81-91): `dup2` each saved target
back onto its stream when the corresponding flag is set. -/
def restore_io (saved_stdout saved_stderr : Int)
    (did_redirect_stdout did_redirect_stderr : Bool) (s : IOSt) : IOSt :=
  let s1 := if did_redirect_stdout then { s with out := saved_stdout } else s
  if did_redirect_stderr then { s1 with err := saved_stderr } else s1

/-- How `run_builtin` returned: `false` without dispatch, `true` after a
builtin body, or the `exit(0)` path of the `exit` builtin. -/
inductive Outcome where
  | notHandled
  | handled
  | exited
deriving DecidableEq, Repr

/-- The builtin table of src/main.cpp lines 287-288. -/
def isBuiltinName (t : List Char) : Bool :=
  t = "echo".toList || t = "exit".toList || t = "pwd".toList || t = "cd".toList ||
    t = "c".toList || t = "clear".toList || t = "type".toList ||
    t = "which".toList || t = "kill".toList

/-- The stream-target effect of `run_builtin` (src/main.cpp lines
271-378): its branch structure, with each builtin body's writes elided
(no body retargets a stream) and each exit path's `restore_io_lambda()`
call kept.  The returned state is the stream state when `run_builtin`
returns, or, on the `exit` path, when `exit(0)` is reached. -/
def run_builtin_io (cmd : Command) (o : Oracle) (s : IOSt) : IOSt × Outcome :=
  if cmd.args = [] then (s, .notHandled)
  else
    let r := apply_redirection cmd o s
    let rest := restore_io r.saved_stdout r.saved_stderr
      r.did_redirect_stdout r.did_redirect_stderr r.st
    let nm := cmd.args.headI
    if nm = "exit".toList then (rest, .exited)
    else if nm = "cd".toList then (rest, .handled)
    else if nm = "c".toList ∨ nm = "clear".toList then (rest, .handled)
    else if nm = "pwd".toList then (rest, .handled)
    else if nm = "type".toList ∨ nm = "which".toList then (rest, .handled)
    else if nm = "kill".toList then (rest, .handled)
    else if nm = "echo".toList then (rest, .handled)
    else (rest, .notHandled)

/-- The numeric value of a digit string, most significant digit first. -/
def digitsVal (ds : List Char) : Nat :=
  ds.foldl (fun a c => a * 10 + (c.toNat - 48)) 0

/-- C++ `std::stoi`: optional leading whitespace, optional sign, then a
non-empty digit run (any trailing garbage ignored).  `none` models a
thrown exception: `invalid_argument` when no digits can be consumed, and
`out_of_range` when the value does not fit in `int`; `run_builtin`'s
`catch (const exception &)` treats both alike. -/
def stoi (s : List Char) : Option Int :=
  let s1 := s.dropWhile isspaceC
  let p : Int × List Char :=
    match s1 with
    | '+' :: r => (1, r)
    | '-' :: r => (-1, r)
    | r => (1, r)
  let ds := p.2.takeWhile Char.isDigit
  if ds = [] then none
  else
    let v : Int := p.1 * (digitsVal ds : Int)
    if v < -2147483648 ∨ 2147483647 < v then none else some v

/-- Observable outcome of the `kill` builtin: the `(pid, signal)` pair
passed to the `kill(2)` call if one was made, whether an error message
was printed, and whether the shell keeps running. -/
structure KillResult where
  sent : Option (Int × Int)
  errorReported : Bool
  continues : Bool
deriving DecidableEq, Repr

/-- The `kill` branch of `run_builtin` (src/main.cpp lines 347-364).
`killOk` models the return value of the `kill(2)` system call; `15` is
`SIGTERM`.  The `catch` block is the `none` branches of `stoi`. -/
def kill_builtin (args : List (List Char)) (killOk : Bool) : KillResult :=
  match args with
  | _ :: a1 :: rest =>
    if (args.length < 2 : Prop) then ⟨none, false, true⟩
    else
      match stoi a1 with
      | none => ⟨none, true, true⟩
      | some pid =>
        match rest with
        | [] => ⟨some (pid, 15), !killOk, true⟩
        | [a2] =>
          match stoi a2 with
          | none => ⟨none, true, true⟩
          | some sg => ⟨some (pid, sg), !killOk, true⟩
        | _ :: _ :: _ => ⟨some (pid, 15), !killOk, true⟩
  | _ => ⟨none, false, true⟩

/-- Modelled from the claim's word "numeric": optional whitespace, an
optional sign, then one or more digits and nothing else. -/
def isNumericArg (s : List Char) : Bool :=
  let s1 := s.dropWhile isspaceC
  let s2 :=
    match s1 with
    | '+' :: r => r
    | '-' :: r => r
    | r => r
  s2 ≠ [] && s2.all Char.isDigit

/-- The spec's data model for a parsed command (§3): `args` plus an
optional `(path, appendMode)` pair per redirected stream. -/
structure SpecCommand where
  args : List (List Char)
  stdoutTarget : Option (List Char × Bool)
  stderrTarget : Option (List Char × Bool)
deriving DecidableEq, Repr

/-- The code's stdout redirection state read as the spec's optional
`stdoutTarget`: the flag selects whether a `(file, append)` pair is
present. -/
def Command.stdoutTarget (c : Command) : Option (List Char × Bool) :=
  if c.redirect_stdout = true then some (c.stdout_file, c.append_stdout) else none

/-- The code's stderr redirection state read as the spec's optional
`stderrTarget`. -/
def Command.stderrTarget (c : Command) : Option (List Char × Bool) :=
  if c.redirect_stderr = true then some (c.stderr_file, c.append_stderr) else none

/-- Modelled from the spec (amended): the left-to-right scan the claim
describes, over the spec's data model.  `>` or `1>` followed by a token
`u` sets `stdoutTarget := (u, append=false)`, `>>`/`1>>` the appending
variant, `2>`/`2>>` the same for `stderrTarget`, each assignment
overwriting any earlier one for that stream; the operator and its
following token are both consumed; an operator that is the last token
is dropped with nothing set; every other token is appended to `args`. -/
def specScan : List (List Char) → SpecCommand → SpecCommand
  | [], sc => sc
  | [t], sc => if IsRedirOp t then sc else { sc with args := sc.args ++ [t] }
  | t :: u :: rest, sc =>
    if t = ['>'] ∨ t = ['1', '>'] then
      specScan rest { sc with stdoutTarget := some (u, false) }
    else if t = ['>', '>'] ∨ t = ['1', '>', '>'] then
      specScan rest { sc with stdoutTarget := some (u, true) }
    else if t = ['2', '>'] then
      specScan rest { sc with stderrTarget := some (u, false) }
    else if t = ['2', '>', '>'] then
      specScan rest { sc with stderrTarget := some (u, true) }
    else
      specScan (u :: rest) { sc with args := sc.args ++ [t] }

lemma joinSpace_cons (t : List Char) (ts : List (List Char)) :
    joinSpace (t :: ts) = t ++ sepJoin ts := by
  cases ts with
  | nil => simp [joinSpace, sepJoin]
  | cons u us => simp [joinSpace, sepJoin]

lemma tok_close {ch : Char} {rest cur : List Char} {inq : Bool} {qc : Char}
    (hq : isQuoteC ch = true) (h1 : inq = true) (h2 : ch = qc) :
    tokenizeAux (ch :: rest) cur inq qc = tokenizeAux rest cur false qc := by
  subst h1 h2; simp [tokenizeAux, hq]

lemma tok_open {ch : Char} {rest cur : List Char} {inq : Bool} {qc : Char}
    (hq : isQuoteC ch = true) (h1 : inq = false) :
    tokenizeAux (ch :: rest) cur inq qc = tokenizeAux rest cur true ch := by
  subst h1; simp [tokenizeAux, hq]

lemma tok_qlit {ch : Char} {rest cur : List Char} {inq : Bool} {qc : Char}
    (hq : isQuoteC ch = true) (h1 : inq = true) (h2 : ch ≠ qc) :
    tokenizeAux (ch :: rest) cur inq qc = tokenizeAux rest (cur ++ [ch]) inq qc := by
  subst h1; simp [tokenizeAux, hq, h2]

lemma tok_space_nil {ch : Char} {rest : List Char} {inq : Bool} {qc : Char}
    (hq : isQuoteC ch = false) (hs : isspaceC ch = true) (h1 : inq = false) :
    tokenizeAux (ch :: rest) [] inq qc = tokenizeAux rest [] inq qc := by
  subst h1; simp [tokenizeAux, hq, hs]

lemma tok_space_push {ch : Char} {rest cur : List Char} {inq : Bool} {qc : Char}
    (hq : isQuoteC ch = false) (hs : isspaceC ch = true) (h1 : inq = false)
    (hc : cur ≠ []) :
    tokenizeAux (ch :: rest) cur inq qc = cur :: tokenizeAux rest [] inq qc := by
  subst h1; simp [tokenizeAux, hq, hs, hc]

lemma tok_lit {ch : Char} {rest cur : List Char} {inq : Bool} {qc : Char}
    (hq : isQuoteC ch = false) (h1 : ¬(isspaceC ch = true ∧ inq = false)) :
    tokenizeAux (ch :: rest) cur inq qc = tokenizeAux rest (cur ++ [ch]) inq qc := by
  simp [tokenizeAux, hq, h1]

lemma sq_close {ch : Char} {rest : List Char} {inq : Bool} {qc : Char} {pend em : Bool}
    (hq : isQuoteC ch = true) (h1 : inq = true) (h2 : ch = qc) :
    squashAux (ch :: rest) inq qc pend em = squashAux rest false qc pend em := by
  subst h1 h2; simp [squashAux, hq]

lemma sq_open {ch : Char} {rest : List Char} {inq : Bool} {qc : Char} {pend em : Bool}
    (hq : isQuoteC ch = true) (h1 : inq = false) :
    squashAux (ch :: rest) inq qc pend em = squashAux rest true ch pend em := by
  subst h1; simp [squashAux, hq]

lemma sq_qlit {ch : Char} {rest : List Char} {inq : Bool} {qc : Char} {pend em : Bool}
    (hq : isQuoteC ch = true) (h1 : inq = true) (h2 : ch ≠ qc) :
    squashAux (ch :: rest) inq qc pend em =
      (if pend = true ∧ em = true then [' '] else []) ++ ch :: squashAux rest inq qc false true := by
  subst h1; simp [squashAux, hq, h2]

lemma sq_space {ch : Char} {rest : List Char} {inq : Bool} {qc : Char} {pend em : Bool}
    (hq : isQuoteC ch = false) (hs : isspaceC ch = true) (h1 : inq = false) :
    squashAux (ch :: rest) inq qc pend em = squashAux rest inq qc true em := by
  subst h1; simp [squashAux, hq, hs]

lemma sq_lit {ch : Char} {rest : List Char} {inq : Bool} {qc : Char} {pend em : Bool}
    (hq : isQuoteC ch = false) (h1 : ¬(isspaceC ch = true ∧ inq = false)) :
    squashAux (ch :: rest) inq qc pend em =
      (if pend = true ∧ em = true then [' '] else []) ++ ch :: squashAux rest inq qc false true := by
  simp [squashAux, hq, h1]

lemma tokenizeAux_ne_nil (l : List Char) :
    ∀ cur inq qc, cur ≠ [] → tokenizeAux l cur inq qc ≠ [] := by
  induction l with
  | nil => intro cur inq qc h; simp [tokenizeAux, h]
  | cons ch rest ih =>
    intro cur inq qc h
    by_cases hq : isQuoteC ch = true
    · cases inq with
      | false => rw [tok_open hq rfl]; exact ih cur true ch h
      | true =>
        by_cases h2 : ch = qc
        · rw [tok_close hq rfl h2]; exact ih cur false qc h
        · rw [tok_qlit hq rfl h2]; exact ih (cur ++ [ch]) true qc (by simp)
    · rw [Bool.not_eq_true] at hq
      by_cases hs : isspaceC ch = true ∧ inq = false
      · rw [tok_space_push hq hs.1 hs.2 h]; simp
      · rw [tok_lit hq hs]; exact ih (cur ++ [ch]) inq qc (by simp)

/-- The mutual correspondence between the tokenizer and the
strip-collapse-trim pass, generalized over the loop state: mid-token
(`cur ≠ []`), between tokens with a separator owed, and before any
emission. -/
lemma tokenizeAux_squashAux (l : List Char) :
    (∀ cur inq qc, cur ≠ [] →
      joinSpace (tokenizeAux l cur inq qc) = cur ++ squashAux l inq qc false true)
    ∧ (∀ inq qc,
      sepJoin (tokenizeAux l [] inq qc) = squashAux l inq qc true true)
    ∧ (∀ inq qc pend,
      joinSpace (tokenizeAux l [] inq qc) = squashAux l inq qc pend false) := by
  induction l with
  | nil =>
    refine ⟨fun cur inq qc h => ?_, fun inq qc => ?_, fun inq qc pend => ?_⟩
    · simp [tokenizeAux, squashAux, h, joinSpace]
    · simp [tokenizeAux, squashAux, sepJoin]
    · simp [tokenizeAux, squashAux, joinSpace]
  | cons ch rest ih =>
    obtain ⟨ih1, ih2, ih3⟩ := ih
    refine ⟨fun cur inq qc h => ?_, fun inq qc => ?_, fun inq qc pend => ?_⟩
    · -- mid-token state
      by_cases hq : isQuoteC ch = true
      · cases inq with
        | false =>
          rw [tok_open hq rfl, sq_open hq rfl]
          exact ih1 cur true ch h
        | true =>
          by_cases h2 : ch = qc
          · rw [tok_close hq rfl h2, sq_close hq rfl h2]
            exact ih1 cur false qc h
          · rw [tok_qlit hq rfl h2, sq_qlit hq rfl h2,
              ih1 (cur ++ [ch]) true qc (by simp)]
            simp
      · rw [Bool.not_eq_true] at hq
        by_cases hs : isspaceC ch = true ∧ inq = false
        · obtain ⟨hs1, hs2⟩ := hs
          subst hs2
          rw [tok_space_push hq hs1 rfl h, sq_space hq hs1 rfl, joinSpace_cons,
            ih2 false qc]
        · rw [tok_lit hq hs, sq_lit hq hs, ih1 (cur ++ [ch]) inq qc (by simp)]
          simp
    · -- between tokens, separator owed
      by_cases hq : isQuoteC ch = true
      · cases inq with
        | false =>
          rw [tok_open hq rfl, sq_open hq rfl]
          exact ih2 true ch
        | true =>
          by_cases h2 : ch = qc
          · rw [tok_close hq rfl h2, sq_close hq rfl h2]
            exact ih2 false qc
          · rw [tok_qlit hq rfl h2, sq_qlit hq rfl h2]
            simp only [List.nil_append]
            rw [sepJoin, if_neg (tokenizeAux_ne_nil rest [ch] true qc (by simp)),
              ih1 [ch] true qc (by simp)]
            simp
      · rw [Bool.not_eq_true] at hq
        by_cases hs : isspaceC ch = true ∧ inq = false
        · obtain ⟨hs1, hs2⟩ := hs
          subst hs2
          rw [tok_space_nil hq hs1 rfl, sq_space hq hs1 rfl]
          exact ih2 false qc
        · rw [tok_lit hq hs, sq_lit hq hs]
          simp only [List.nil_append]
          rw [sepJoin, if_neg (tokenizeAux_ne_nil rest [ch] inq qc (by simp)),
            ih1 [ch] inq qc (by simp)]
          simp
    · -- nothing emitted yet
      by_cases hq : isQuoteC ch = true
      · cases inq with
        | false =>
          rw [tok_open hq rfl, sq_open hq rfl]
          exact ih3 true ch pend
        | true =>
          by_cases h2 : ch = qc
          · rw [tok_close hq rfl h2, sq_close hq rfl h2]
            exact ih3 false qc pend
          · rw [tok_qlit hq rfl h2, sq_qlit hq rfl h2]
            simp only [List.nil_append]
            rw [ih1 [ch] true qc (by simp)]
            simp
      · rw [Bool.not_eq_true] at hq
        by_cases hs : isspaceC ch = true ∧ inq = false
        · obtain ⟨hs1, hs2⟩ := hs
          subst hs2
          rw [tok_space_nil hq hs1 rfl, sq_space hq hs1 rfl]
          exact ih3 false qc true
        · rw [tok_lit hq hs, sq_lit hq hs]
          simp only [List.nil_append]
          rw [ih1 [ch] inq qc (by simp)]
          simp

/-- Tokenize-then-rejoin equals strip-collapse-trim, for every line. -/
lemma joinSpace_tokenize (s : List Char) :
    joinSpace (tokenize s) = strippedCollapsed s := by
  simpa [tokenize, strippedCollapsed] using (tokenizeAux_squashAux s).2.2 false '\x00' false

/-- Induction on token lists matching the one-or-two tokens a step of
the redirection pass consumes. -/
lemma twoStepInduction {motive : List (List Char) → Prop}
    (h0 : motive [])
    (h1 : ∀ t, motive [t])
    (h2 : ∀ t u rest, motive rest → motive (u :: rest) → motive (t :: u :: rest)) :
    ∀ ts, motive ts := by
  have H : ∀ n ts, List.length ts ≤ n → motive ts := by
    intro n
    induction n with
    | zero =>
      intro ts h
      rw [List.eq_nil_of_length_eq_zero (Nat.le_zero.mp h)]
      exact h0
    | succ n ih =>
      intro ts h
      match ts with
      | [] => exact h0
      | [t] => exact h1 t
      | t :: u :: rest =>
        refine h2 t u rest (ih rest ?_) (ih (u :: rest) ?_) <;> simp at h ⊢ <;> omega
  exact fun ts => H ts.length ts le_rfl

lemma not_isRedirOp {t : List Char}
    (h1 : ¬(t = ['>'] ∨ t = ['1', '>'])) (h2 : ¬(t = ['>', '>'] ∨ t = ['1', '>', '>']))
    (h3 : ¬t = ['2', '>']) (h4 : ¬t = ['2', '>', '>']) : ¬IsRedirOp t := by
  rintro ((h | h) | (h | h) | h | h)
  · exact h1 (Or.inl h)
  · exact h1 (Or.inr h)
  · exact h2 (Or.inl h)
  · exact h2 (Or.inr h)
  · exact h3 h
  · exact h4 h

/-- A step of the redirection pass on an operator with a target. -/
lemma redirPass_cons_op {t : List Char} (u : List Char) (rest2 : List (List Char))
    (cmd : Command) (h : IsRedirOp t) :
    redirPass (t :: u :: rest2) cmd = redirPass rest2 (opSet t u cmd) := by
  rcases h with (rfl | rfl) | (rfl | rfl) | rfl | rfl <;> simp [redirPass, opSet]

/-- A trailing operator is dropped with no effect. -/
lemma redirPass_single_op {t : List Char} (cmd : Command) (h : IsRedirOp t) :
    redirPass [t] cmd = cmd := by
  rcases h with (rfl | rfl) | (rfl | rfl) | rfl | rfl <;> simp [redirPass]

/-- A step of the redirection pass on a non-operator token. -/
lemma redirPass_cons_plain {t : List Char} (rest : List (List Char))
    (cmd : Command) (h : ¬IsRedirOp t) :
    redirPass (t :: rest) cmd = redirPass rest { cmd with args := cmd.args ++ [t] } := by
  have h1 : ¬(t = ['>'] ∨ t = ['1', '>']) := fun hc => h (Or.inl hc)
  have h2 : ¬(t = ['>', '>'] ∨ t = ['1', '>', '>']) := fun hc => h (Or.inr (Or.inl hc))
  have h3 : ¬t = ['2', '>'] := fun hc => h (Or.inr (Or.inr (Or.inl hc)))
  have h4 : ¬t = ['2', '>', '>'] := fun hc => h (Or.inr (Or.inr (Or.inr hc)))
  cases rest <;> simp [redirPass, h1, h2, h3, h4]

/-- `opSet` never touches `args`. -/
lemma opSet_args (t u : List Char) (cmd : Command) :
    (opSet t u cmd).args = cmd.args := by
  unfold opSet
  split
  · rfl
  · split
    · rfl
    · split <;> rfl

/-- The `args` a run of the redirection pass produces: the initial
`args` followed by the kept tokens. -/
lemma redirPass_args (ts : List (List Char)) :
    ∀ cmd, (redirPass ts cmd).args = cmd.args ++ keptArgs ts := by
  induction ts using twoStepInduction with
  | h0 => intro cmd; simp [redirPass, keptArgs]
  | h1 t =>
    intro cmd
    by_cases h : IsRedirOp t
    · rw [redirPass_single_op cmd h]
      simp [keptArgs, h]
    · rw [redirPass_cons_plain [] cmd h]
      simp [redirPass, keptArgs, h]
  | h2 t u rest ih1 ih2 =>
    intro cmd
    by_cases h : IsRedirOp t
    · rw [redirPass_cons_op u rest cmd h, ih1 (opSet t u cmd), opSet_args]
      simp [keptArgs, h]
    · rw [redirPass_cons_plain (u :: rest) cmd h, ih2]
      simp [keptArgs, h]

/-- Every kept token occurs in the input and is not an operator. -/
lemma keptArgs_mem (ts : List (List Char)) :
    ∀ x ∈ keptArgs ts, x ∈ ts ∧ ¬IsRedirOp x := by
  induction ts using twoStepInduction with
  | h0 => simp [keptArgs]
  | h1 t =>
    intro x hx
    by_cases h : IsRedirOp t
    · simp [keptArgs, h] at hx
    · simp [keptArgs, h] at hx
      subst hx
      exact ⟨by simp, h⟩
  | h2 t u rest ih1 ih2 =>
    intro x hx
    by_cases h : IsRedirOp t
    · rw [keptArgs, if_pos h] at hx
      obtain ⟨hm, hop⟩ := ih1 x hx
      exact ⟨by simp [hm], hop⟩
    · rw [keptArgs, if_neg h] at hx
      rcases List.mem_cons.mp hx with rfl | hx
      · exact ⟨by simp, h⟩
      · obtain ⟨hm, hop⟩ := ih2 x hx
        exact ⟨by simp [hm], hop⟩

/-- The kept tokens vanish exactly on the operator-only token lists. -/
lemma keptArgs_eq_nil_iff (ts : List (List Char)) :
    keptArgs ts = [] ↔ onlyRedirOps ts = true := by
  induction ts using twoStepInduction with
  | h0 => simp [keptArgs, onlyRedirOps]
  | h1 t => by_cases h : IsRedirOp t <;> simp [keptArgs, onlyRedirOps, h]
  | h2 t u rest ih1 ih2 =>
    by_cases h : IsRedirOp t
    · rw [keptArgs, if_pos h, onlyRedirOps]
      simp [h, ih1]
    · rw [keptArgs, if_neg h, onlyRedirOps]
      simp [h]

/-- A token list with no operators passes through into `args` whole. -/
lemma redirPass_plain (ts : List (List Char)) :
    (∀ t ∈ ts, ¬IsRedirOp t) →
      ∀ cmd, redirPass ts cmd = { cmd with args := cmd.args ++ ts } := by
  induction ts with
  | nil => intro _ cmd; simp [redirPass]
  | cons t rest ih =>
    intro h cmd
    rw [redirPass_cons_plain rest cmd (h t (by simp)),
      ih (fun u hu => h u (by simp [hu]))]
    simp

/-- A plain prefix of the token list is appended to `args` and the pass
continues on the remainder. -/
lemma redirPass_append_plain (pre : List (List Char)) :
    (∀ t ∈ pre, ¬IsRedirOp t) →
      ∀ rest cmd, redirPass (pre ++ rest) cmd =
        redirPass rest { cmd with args := cmd.args ++ pre } := by
  induction pre with
  | nil => intro _ rest cmd; simp
  | cons t pre2 ih =>
    intro h rest cmd
    rw [List.cons_append, redirPass_cons_plain (pre2 ++ rest) cmd (h t (by simp)),
      ih (fun u hu => h u (by simp [hu]))]
    simp

/-- Extracting a single operator-plus-target occurrence among otherwise
plain tokens: the resulting `Command` depends only on the operator, the
target, and the other tokens in order. -/
lemma redirPass_op_extract (op t : List Char) (pre post : List (List Char))
    (hop : IsRedirOp op) (hpre : ∀ x ∈ pre, ¬IsRedirOp x)
    (hpost : ∀ x ∈ post, ¬IsRedirOp x) :
    parseTokens (pre ++ op :: t :: post) =
      opSet op t { Command.init with args := pre ++ post } := by
  unfold parseTokens
  rw [redirPass_append_plain pre hpre, redirPass_cons_op t post _ hop,
    redirPass_plain post hpost]
  rcases hop with (rfl | rfl) | (rfl | rfl) | rfl | rfl <;> simp [opSet, Command.init]

/-- A trailing operator among otherwise plain tokens is dropped. -/
lemma redirPass_trailing_op (op : List Char) (pre : List (List Char))
    (hop : IsRedirOp op) (hpre : ∀ x ∈ pre, ¬IsRedirOp x) :
    parseTokens (pre ++ [op]) = { Command.init with args := pre } := by
  unfold parseTokens
  rw [redirPass_append_plain pre hpre, redirPass_single_op _ hop]
  simp [Command.init]

/-- The redirection pass refines the spec's scan: from corresponding
states, the code's flag-pair representation and the spec's optional
targets stay in correspondence on every token list. -/
lemma redirPass_specScan (ts : List (List Char)) :
    ∀ (cmd : Command) (sc : SpecCommand),
      cmd.args = sc.args → Command.stdoutTarget cmd = sc.stdoutTarget →
      Command.stderrTarget cmd = sc.stderrTarget →
      (redirPass ts cmd).args = (specScan ts sc).args
      ∧ Command.stdoutTarget (redirPass ts cmd) = (specScan ts sc).stdoutTarget
      ∧ Command.stderrTarget (redirPass ts cmd) = (specScan ts sc).stderrTarget := by
  induction ts using twoStepInduction with
  | h0 =>
    intro cmd sc e1 e2 e3
    exact ⟨e1, e2, e3⟩
  | h1 t =>
    intro cmd sc e1 e2 e3
    by_cases h : IsRedirOp t
    · rw [redirPass_single_op cmd h]
      simp only [specScan, if_pos h]
      exact ⟨e1, e2, e3⟩
    · rw [redirPass_cons_plain [] cmd h]
      simp only [specScan, if_neg h, redirPass]
      refine ⟨by simp [e1], ?_, ?_⟩
      · simpa [Command.stdoutTarget] using e2
      · simpa [Command.stderrTarget] using e3
  | h2 t u rest ih1 ih2 =>
    intro cmd sc e1 e2 e3
    by_cases ha : t = ['>'] ∨ t = ['1', '>']
    · rw [redirPass_cons_op u rest cmd (Or.inl ha)]
      have hs : specScan (t :: u :: rest) sc =
          specScan rest { sc with stdoutTarget := some (u, false) } := by
        rcases ha with rfl | rfl <;> simp [specScan]
      rw [hs]
      refine ih1 _ _ ?_ ?_ ?_
      · rcases ha with rfl | rfl <;> simpa [opSet] using e1
      · rcases ha with rfl | rfl <;> simp [opSet, Command.stdoutTarget]
      · rcases ha with rfl | rfl <;> simpa [opSet, Command.stderrTarget] using e3
    · by_cases hb : t = ['>', '>'] ∨ t = ['1', '>', '>']
      · rw [redirPass_cons_op u rest cmd (Or.inr (Or.inl hb))]
        have hs : specScan (t :: u :: rest) sc =
            specScan rest { sc with stdoutTarget := some (u, true) } := by
          rcases hb with rfl | rfl <;> simp [specScan]
        rw [hs]
        refine ih1 _ _ ?_ ?_ ?_
        · rcases hb with rfl | rfl <;> simpa [opSet] using e1
        · rcases hb with rfl | rfl <;> simp [opSet, Command.stdoutTarget]
        · rcases hb with rfl | rfl <;> simpa [opSet, Command.stderrTarget] using e3
      · by_cases hc : t = ['2', '>']
        · rw [redirPass_cons_op u rest cmd (Or.inr (Or.inr (Or.inl hc)))]
          have hs : specScan (t :: u :: rest) sc =
              specScan rest { sc with stderrTarget := some (u, false) } := by
            subst hc; simp [specScan]
          rw [hs]
          refine ih1 _ _ ?_ ?_ ?_
          · subst hc; simpa [opSet] using e1
          · subst hc; simpa [opSet, Command.stdoutTarget] using e2
          · subst hc; simp [opSet, Command.stderrTarget]
        · by_cases hd : t = ['2', '>', '>']
          · rw [redirPass_cons_op u rest cmd (Or.inr (Or.inr (Or.inr hd)))]
            have hs : specScan (t :: u :: rest) sc =
                specScan rest { sc with stderrTarget := some (u, true) } := by
              subst hd; simp [specScan, hc]
            rw [hs]
            refine ih1 _ _ ?_ ?_ ?_
            · subst hd; simpa [opSet] using e1
            · subst hd; simpa [opSet, Command.stdoutTarget] using e2
            · subst hd; simp [opSet, Command.stderrTarget]
          · have hno : ¬IsRedirOp t := not_isRedirOp ha hb hc hd
            rw [redirPass_cons_plain (u :: rest) cmd hno]
            have hs : specScan (t :: u :: rest) sc =
                specScan (u :: rest) { sc with args := sc.args ++ [t] } := by
              simp [specScan, ha, hb, hc, hd]
            rw [hs]
            refine ih2 _ _ ?_ ?_ ?_
            · simp [e1]
            · simpa [Command.stdoutTarget] using e2
            · simpa [Command.stderrTarget] using e3

lemma common2_pre_left : ∀ a b : List Char, common2 a b <+: a := by
  intro a
  induction a with
  | nil => intro b; cases b <;> simp [common2]
  | cons x as ih =>
    intro b
    cases b with
    | nil => simp [common2]
    | cons y bs =>
      by_cases h : x = y
      · subst h
        simpa [common2, List.cons_prefix_cons] using ih bs
      · simp [common2, h]

lemma common2_pre_right : ∀ a b : List Char, common2 a b <+: b := by
  intro a
  induction a with
  | nil => intro b; cases b <;> simp [common2]
  | cons x as ih =>
    intro b
    cases b with
    | nil => simp [common2]
    | cons y bs =>
      by_cases h : x = y
      · subst h
        simpa [common2, List.cons_prefix_cons] using ih bs
      · simp [common2, h]

lemma pre_common2 : ∀ p a b : List Char, p <+: a → p <+: b → p <+: common2 a b := by
  intro p
  induction p with
  | nil => intro a b _ _; exact List.nil_prefix
  | cons x p2 ih =>
    intro a b h1 h2
    obtain ⟨ta, rfl⟩ := h1
    obtain ⟨tb, rfl⟩ := h2
    simp only [List.cons_append, common2, if_pos rfl]
    exact List.cons_prefix_cons.mpr ⟨rfl, ih (p2 ++ ta) (p2 ++ tb) ⟨ta, rfl⟩ ⟨tb, rfl⟩⟩

lemma foldl_common2_pre : ∀ (rest : List (List Char)) (acc : List Char),
    (rest.foldl common2 acc <+: acc) ∧ ∀ m ∈ rest, rest.foldl common2 acc <+: m := by
  intro rest
  induction rest with
  | nil => intro acc; exact ⟨List.prefix_rfl, by simp⟩
  | cons x rest2 ih =>
    intro acc
    obtain ⟨hacc, hmem⟩ := ih (common2 acc x)
    refine ⟨?_, ?_⟩
    · simpa using hacc.trans (common2_pre_left acc x)
    · intro m hm
      rcases List.mem_cons.mp hm with rfl | hm
      · simpa using hacc.trans (common2_pre_right acc m)
      · simpa using hmem m hm

lemma foldl_common2_longest : ∀ (rest : List (List Char)) (acc p : List Char),
    p <+: acc → (∀ m ∈ rest, p <+: m) → p <+: rest.foldl common2 acc := by
  intro rest
  induction rest with
  | nil => intro acc p h _; simpa using h
  | cons x rest2 ih =>
    intro acc p h hm
    simpa using ih (common2 acc x) p
      (pre_common2 p acc x h (hm x (by simp)))
      (fun m hmm => hm m (by simp [hmm]))

/-- `lcp_` computes a common prefix of all its inputs. -/
lemma lcp_isPre (ms : List (List Char)) : ∀ m ∈ ms, lcp_ ms <+: m := by
  cases ms with
  | nil => simp
  | cons m0 rest =>
    intro m hm
    rcases List.mem_cons.mp hm with rfl | hm
    · exact (foldl_common2_pre rest m).1
    · exact (foldl_common2_pre rest m0).2 m hm

/-- `lcp_` computes the longest common prefix: any common prefix of all
the inputs is a prefix of it. -/
lemma lcp_longest (m0 : List Char) (rest : List (List Char)) (p : List Char)
    (h : ∀ m ∈ m0 :: rest, p <+: m) : p <+: lcp_ (m0 :: rest) :=
  foldl_common2_longest rest m0 p (h m0 (by simp)) (fun m hm => h m (by simp [hm]))

/-- `restore_io` after `apply_redirection` restores the stream targets
saved by the `dup` calls, on success and failure of each `open` alike. -/
lemma restore_apply (cmd : Command) (o : Oracle) (s : IOSt) :
    restore_io (apply_redirection cmd o s).saved_stdout
      (apply_redirection cmd o s).saved_stderr
      (apply_redirection cmd o s).did_redirect_stdout
      (apply_redirection cmd o s).did_redirect_stderr
      (apply_redirection cmd o s).st = s := by
  unfold apply_redirection restore_io
  by_cases g1 : cmd.redirect_stdout = true ∧ cmd.stdout_file ≠ [] <;>
    by_cases g2 : cmd.redirect_stderr = true ∧ cmd.stderr_file ≠ [] <;>
      rcases ho : o.openOut with _ | fd1 <;> rcases he : o.openErr with _ | fd2 <;>
        simp [g1, g2, ho, he]

/-- When the quote state is closed, the remembered `quote_char` does not
influence the tokenizer. -/
lemma tokenizeAux_qc_irrel (l : List Char) :
    ∀ cur qc qc', tokenizeAux l cur false qc = tokenizeAux l cur false qc' := by
  induction l with
  | nil => intro cur qc qc'; rfl
  | cons ch rest ih =>
    intro cur qc qc'
    by_cases hq : isQuoteC ch = true
    · rw [tok_open hq rfl, tok_open hq rfl]
    · rw [Bool.not_eq_true] at hq
      by_cases hs : isspaceC ch = true
      · by_cases hc : cur = []
        · subst hc
          rw [tok_space_nil hq hs rfl, tok_space_nil hq hs rfl]
          exact ih [] qc qc'
        · rw [tok_space_push hq hs rfl hc, tok_space_push hq hs rfl hc, ih [] qc qc']
      · rw [tok_lit hq (by simp [hs]), tok_lit hq (by simp [hs])]
        exact ih (cur ++ [ch]) qc qc'

/-- Inside a quoted span, a quote-free run of characters is appended to
the current token verbatim. -/
lemma tokenizeAux_inquote (w : List Char) :
    ∀ rest cur q, (∀ c ∈ w, isQuoteC c = false) →
      tokenizeAux (w ++ rest) cur true q = tokenizeAux rest (cur ++ w) true q := by
  induction w with
  | nil => intro rest cur q _; simp
  | cons c w2 ih =>
    intro rest cur q h
    rw [List.cons_append, tok_lit (h c (by simp)) (by simp),
      ih rest (cur ++ [c]) q (fun d hd => h d (by simp [hd]))]
    simp

/-- Outside quotes, a quote-free whitespace-free run of characters is
appended to the current token verbatim. -/
lemma tokenizeAux_unq (w : List Char) :
    ∀ rest cur qc, (∀ c ∈ w, isQuoteC c = false ∧ isspaceC c = false) →
      tokenizeAux (w ++ rest) cur false qc = tokenizeAux rest (cur ++ w) false qc := by
  induction w with
  | nil => intro rest cur qc _; simp
  | cons c w2 ih =>
    intro rest cur qc h
    rw [List.cons_append, tok_lit (h c (by simp)).1 (by simp [(h c (by simp)).2]),
      ih rest (cur ++ [c]) qc (fun d hd => h d (by simp [hd]))]
    simp

/-- A quote-free run of input keeps the quote state closed and acts the
same before any two continuations that agree from every closed state. -/
lemma tokenizeAux_prepend (s1 : List Char) :
    (∀ c ∈ s1, isQuoteC c = false) →
      ∀ A B : List Char, (∀ cur qc qc', tokenizeAux A cur false qc = tokenizeAux B cur false qc') →
        ∀ cur qc qc', tokenizeAux (s1 ++ A) cur false qc = tokenizeAux (s1 ++ B) cur false qc' := by
  induction s1 with
  | nil => intro _ A B h cur qc qc'; exact h cur qc qc'
  | cons c s2 ih =>
    intro hs1 A B h cur qc qc'
    have hcq : isQuoteC c = false := hs1 c (by simp)
    have hs2 : ∀ d ∈ s2, isQuoteC d = false := fun d hd => hs1 d (by simp [hd])
    by_cases hsp : isspaceC c = true
    · by_cases hc : cur = []
      · subst hc
        rw [List.cons_append, List.cons_append, tok_space_nil hcq hsp rfl,
          tok_space_nil hcq hsp rfl]
        exact ih hs2 A B h [] qc qc'
      · rw [List.cons_append, List.cons_append, tok_space_push hcq hsp rfl hc,
          tok_space_push hcq hsp rfl hc, ih hs2 A B h [] qc qc']
    · rw [List.cons_append, List.cons_append, tok_lit hcq (by simp [hsp]),
        tok_lit hcq (by simp [hsp])]
      exact ih hs2 A B h (cur ++ [c]) qc qc'

/-- A quoted span of quote-free, whitespace-free characters tokenizes
exactly as the same span written without the quotes. -/
lemma tokenize_quoted_span (q : Char) (w s1 s2 : List Char)
    (hq : isQuoteC q = true) (h1 : ∀ c ∈ s1, isQuoteC c = false)
    (hw : ∀ c ∈ w, isQuoteC c = false ∧ isspaceC c = false) :
    tokenize (s1 ++ q :: (w ++ q :: s2)) = tokenize (s1 ++ (w ++ s2)) := by
  unfold tokenize
  refine tokenizeAux_prepend s1 h1 _ _ (fun cur qc qc' => ?_) [] '\x00' '\x00'
  rw [tok_open hq rfl, tokenizeAux_inquote w _ cur q (fun c hc => (hw c hc).1),
    tok_close hq rfl rfl, tokenizeAux_unq w _ cur qc' hw]
  exact tokenizeAux_qc_irrel s2 (cur ++ w) q qc'

/-- Every token the tokenizer emits is non-empty, from any loop state:
a token is only pushed under a `!current.empty()` guard. -/
lemma tokenizeAux_mem_ne_nil (l : List Char) :
    ∀ cur inq qc x, x ∈ tokenizeAux l cur inq qc → x ≠ [] := by
  induction l with
  | nil =>
    intro cur inq qc x hx
    by_cases hc : cur = []
    · simp [tokenizeAux, hc] at hx
    · simp [tokenizeAux, hc] at hx
      subst hx
      exact hc
  | cons ch rest ih =>
    intro cur inq qc x hx
    by_cases hq : isQuoteC ch = true
    · cases inq with
      | false =>
        rw [tok_open hq rfl] at hx
        exact ih cur true ch x hx
      | true =>
        by_cases h2 : ch = qc
        · rw [tok_close hq rfl h2] at hx
          exact ih cur false qc x hx
        · rw [tok_qlit hq rfl h2] at hx
          exact ih (cur ++ [ch]) true qc x hx
    · rw [Bool.not_eq_true] at hq
      by_cases hs : isspaceC ch = true ∧ inq = false
      · by_cases hc : cur = []
        · subst hc
          obtain ⟨hs1, hs2⟩ := hs
          subst hs2
          rw [tok_space_nil hq hs1 rfl] at hx
          exact ih [] false qc x hx
        · obtain ⟨hs1, hs2⟩ := hs
          subst hs2
          rw [tok_space_push hq hs1 rfl hc] at hx
          rcases List.mem_cons.mp hx with rfl | hx
          · exact hc
          · exact ih [] false qc x hx
      · rw [tok_lit hq hs] at hx
        exact ih (cur ++ [ch]) inq qc x hx

/-- The `args` of a parsed line are among its tokens and are never
operator-shaped. -/
lemma parse_cmd_args_mem (s : List Char) :
    ∀ x ∈ (parse_cmd s).args, x ∈ tokenize s ∧ ¬IsRedirOp x := by
  intro x hx
  rw [parse_cmd, parseTokens, redirPass_args] at hx
  simp only [Command.init, List.nil_append] at hx
  exact keptArgs_mem (tokenize s) x hx

/-- C1, counterexample: the line `a  b` (two unquoted spaces) is
printable with balanced quotes, yet tokenizing and rejoining with single
spaces yields `a b`, not the quote-stripped content `a  b`: the claimed
round trip fails because runs of unquoted whitespace collapse. -/
theorem c1_counterexample :
    PrintableLine ['a', ' ', ' ', 'b'] ∧ BalancedLine ['a', ' ', ' ', 'b'] ∧
      joinSpace (tokenize ['a', ' ', ' ', 'b']) ≠ stripQuotes ['a', ' ', ' ', 'b'] := by
  decide

/-- C1, amended: for every input line of printable characters with
balanced quotes, tokenizing with `parse_cmd`'s tokenizer and rejoining
the tokens with single spaces reproduces the line's content with the
quote characters stripped, each maximal run of unquoted whitespace
collapsed to a single space, and leading and trailing unquoted
whitespace removed. -/
theorem c1_round_trip (s : List Char)
    (_h1 : PrintableLine s) (_h2 : BalancedLine s) :
    joinSpace (tokenize s) = strippedCollapsed s :=
  joinSpace_tokenize s

/-- C1 witness: the round trip at the concrete line `ab 'c d'`. -/
theorem c1_round_trip_witness :
    PrintableLine ['a', 'b', ' ', '\'', 'c', ' ', 'd', '\''] ∧
      BalancedLine ['a', 'b', ' ', '\'', 'c', ' ', 'd', '\''] ∧
      joinSpace (tokenize ['a', 'b', ' ', '\'', 'c', ' ', 'd', '\'']) =
        strippedCollapsed ['a', 'b', ' ', '\'', 'c', ' ', 'd', '\''] :=
  ⟨by decide, by decide,
    c1_round_trip ['a', 'b', ' ', '\'', 'c', ' ', 'd', '\''] (by decide) (by decide)⟩

/-- C2, counterexample: on the token list `echo > a > b`, the operator
`>` is followed by the token `a`, yet the returned `Command` does not
have `stdoutTarget = (a, append=false)`: the later `>` overwrote it
with `b`.  The claimed per-operator final-state mapping fails on token
lists with more than one operator for the same stream. -/
theorem c2_counterexample :
    (parseTokens [['e', 'c', 'h', 'o'], ['>'], ['a'], ['>'], ['b']]).stdout_file ≠ ['a'] ∧
      parseTokens [['e', 'c', 'h', 'o'], ['>'], ['a'], ['>'], ['b']] =
        ⟨[['e', 'c', 'h', 'o']], true, ['b'], false, false, [], false⟩ := by
  decide

/-- C2, amended: for every token list produced by the tokenizer, the
second pass is the left-to-right scan over the spec's data model:
`>`/`1>` followed by a token `T` sets `stdoutTarget := (T, false)`,
`>>`/`1>>` sets `(T, true)`, `2>` sets `stderrTarget := (T, false)`,
`2>>` sets `(T, true)`, each assignment overwriting any earlier one for
that stream; each recognized operator and its following token are
removed from `args`; a trailing operator is dropped with no redirection
set and no error; and the remaining tokens appear in `args` in their
original relative order (`specScan` transcribes exactly this scan, and
the code's flag-pair fields are read as the spec's optional targets).
The final conjunct evaluates the two-stream case `cmd > out 2> err`. -/
theorem c2_redirection_extraction :
    (∀ ts : List (List Char),
      (parseTokens ts).args = (specScan ts ⟨[], none, none⟩).args
      ∧ Command.stdoutTarget (parseTokens ts) = (specScan ts ⟨[], none, none⟩).stdoutTarget
      ∧ Command.stderrTarget (parseTokens ts) = (specScan ts ⟨[], none, none⟩).stderrTarget)
    ∧ parseTokens [['c', 'm', 'd'], ['>'], ['o'], ['2', '>'], ['e']] =
        ⟨[['c', 'm', 'd']], true, ['o'], false, true, ['e'], false⟩ := by
  constructor
  · intro ts
    exact redirPass_specScan ts Command.init ⟨[], none, none⟩ rfl rfl rfl
  · decide

/-- C4, counterexample: the line `''` is non-empty and contains no
redirection operator (no `>` at all), yet `parse_cmd` returns empty
`args`: an empty quoted span produces no token. -/
theorem c4_counterexample :
    (parse_cmd ['\'', '\'']).args = [] ∧ ['\'', '\''] ≠ ([] : List Char) ∧
      '>' ∉ ['\'', '\''] := by
  decide

/-- C4, amended: `args` is empty exactly when the line tokenizes to
nothing but redirection operators and their consumed targets — in
particular also when the line tokenizes to nothing at all (empty line,
only unquoted whitespace, or only empty quoted spans). -/
theorem c4_args_empty_iff (s : List Char) :
    (parse_cmd s).args = [] ↔ onlyRedirOps (tokenize s) = true := by
  rw [parse_cmd, parseTokens, redirPass_args, ← keptArgs_eq_nil_iff]
  simp [Command.init]

/-- C6, counterexample: with a second operator present, moving the
operator-plus-target pair `> b` from the end to the front changes the
stdout target (`b` before the move, `a` after), so extraction is not
insensitive to the pair's position on arbitrary token lists. -/
theorem c6_counterexample :
    (parseTokens [['>'], ['a'], ['>'], ['b']]).stdout_file = ['b'] ∧
      (parseTokens [['>'], ['b'], ['>'], ['a']]).stdout_file = ['a'] := by
  decide

/-- C6, amended: when every other token is not itself a redirection
operator, moving the operator-plus-target pair to any other position
among them yields an identical `Command`: same `args` and same
redirection targets. -/
theorem c6_op_position (op t : List Char) (pre post pre2 post2 : List (List Char))
    (hop : IsRedirOp op)
    (hpre : ∀ x ∈ pre, ¬IsRedirOp x) (hpost : ∀ x ∈ post, ¬IsRedirOp x)
    (hpre2 : ∀ x ∈ pre2, ¬IsRedirOp x) (hpost2 : ∀ x ∈ post2, ¬IsRedirOp x)
    (hsame : pre ++ post = pre2 ++ post2) :
    parseTokens (pre ++ op :: t :: post) = parseTokens (pre2 ++ op :: t :: post2) := by
  rw [redirPass_op_extract op t pre post hop hpre hpost,
    redirPass_op_extract op t pre2 post2 hop hpre2 hpost2, hsame]

/-- C6 witness: `cmd a > t` and `> t cmd a` parse identically. -/
theorem c6_op_position_witness :
    parseTokens ([['c', 'm', 'd']] ++ ['>'] :: ['t'] :: [['a']]) =
      parseTokens ([] ++ ['>'] :: ['t'] :: [['c', 'm', 'd'], ['a']]) :=
  c6_op_position ['>'] ['t'] [['c', 'm', 'd']] [['a']] [] [['c', 'm', 'd'], ['a']]
    (by decide) (by decide) (by decide) (by decide) (by decide) rfl

/-- C9: `parse_cmd` never emits the empty string, neither as a token of
the first pass nor as an element of `args`; an explicitly quoted empty
string (here `a "" b`) contributes no token at all rather than an empty
argument. -/
theorem c9_no_empty_tokens :
    (∀ (s : List Char) (x : List Char),
      x ∈ tokenize s ∨ x ∈ (parse_cmd s).args → x ≠ [])
    ∧ tokenize ['a', ' ', '"', '"', ' ', 'b'] = [['a'], ['b']] := by
  refine ⟨fun s x hx => ?_, by decide⟩
  rcases hx with hx | hx
  · exact tokenizeAux_mem_ne_nil s [] false '\x00' x hx
  · exact tokenizeAux_mem_ne_nil s [] false '\x00' x (parse_cmd_args_mem s x hx).1

/-- C9 witness: the first token of the line `a b` is non-empty. -/
theorem c9_no_empty_tokens_witness : (['a'] : List Char) ≠ [] :=
  c9_no_empty_tokens.1 ['a', ' ', 'b'] ['a'] (Or.inl (by decide))

/-- C10: quoting does not protect redirection operators.  First, a
quoted span of quote-free non-whitespace characters parses exactly as if
it were unquoted (so `'>'`, `">"`, `1'>'`, ... behave as the bare
operator spelling); second, an operator-shaped token never reaches
`args` as a literal argument, on any input line. -/
theorem c10_quoting_no_protection :
    (∀ (q : Char) (w s1 s2 : List Char), isQuoteC q = true →
      (∀ c ∈ s1, isQuoteC c = false) →
      (∀ c ∈ w, isQuoteC c = false ∧ isspaceC c = false) →
      parse_cmd (s1 ++ q :: (w ++ q :: s2)) = parse_cmd (s1 ++ (w ++ s2)))
    ∧ ∀ (s : List Char) (x : List Char), x ∈ (parse_cmd s).args → ¬IsRedirOp x := by
  constructor
  · intro q w s1 s2 hq h1 hw
    unfold parse_cmd
    rw [tokenize_quoted_span q w s1 s2 hq h1 hw]
  · intro s x hx
    exact (parse_cmd_args_mem s x hx).2

/-- C10 witness: `echo '>' f` parses exactly as `echo > f`. -/
theorem c10_quoting_no_protection_witness :
    parse_cmd (['e', 'c', 'h', 'o', ' '] ++ '\'' :: (['>'] ++ '\'' :: [' ', 'f'])) =
      parse_cmd (['e', 'c', 'h', 'o', ' '] ++ (['>'] ++ [' ', 'f'])) :=
  c10_quoting_no_protection.1 '\'' ['>'] ['e', 'c', 'h', 'o', ' '] [' ', 'f']
    (by decide) (by decide) (by decide)

/-- C3: a `CompleteRequest` on a non-empty buffer replaces the buffer by
the single match plus a trailing space with the cursor at the end; with
two or more matches it replaces the buffer by their byte-wise longest
common prefix (a common prefix of all matches that extends every common
prefix) with the cursor at the end when it differs from the buffer, and
otherwise leaves buffer and cursor unchanged (matches are only printed);
an empty match list changes nothing. -/
theorem c3_completion (s : EditState) (ms : List (List Char)) (hbuf : s.buf ≠ []) :
    (edit_step s (.complete []) = s)
    ∧ (∀ m, ms = [m] → edit_step s (.complete ms) = ⟨m ++ [' '], m.length + 1⟩)
    ∧ ∀ m1 m2 t2, ms = m1 :: m2 :: t2 →
        ((lcp_ ms ≠ s.buf →
            edit_step s (.complete ms) = ⟨lcp_ ms, (lcp_ ms).length⟩)
          ∧ (lcp_ ms = s.buf → edit_step s (.complete ms) = s)
          ∧ (∀ m ∈ ms, lcp_ ms <+: m)
          ∧ ∀ p, (∀ m ∈ ms, p <+: m) → p <+: lcp_ ms) := by
  refine ⟨?_, ?_, ?_⟩
  · simp [edit_step, hbuf]
  · intro m hm
    subst hm
    simp [edit_step, hbuf]
  · intro m1 m2 t2 hm
    subst hm
    refine ⟨fun hne => ?_, fun heq => ?_, lcp_isPre _, lcp_longest m1 (m2 :: t2)⟩
    · simp [edit_step, hbuf, hne]
    · simp [edit_step, hbuf, heq]

/-- C3 witness: completing `l` against the single match `ls`, and `f`
against the matches `foo`, `fob`. -/
theorem c3_completion_witness :
    edit_step ⟨['l'], 1⟩ (.complete [['l', 's']]) = ⟨['l', 's', ' '], 3⟩ ∧
      edit_step ⟨['f'], 1⟩ (.complete [['f', 'o', 'o'], ['f', 'o', 'b']]) =
        ⟨['f', 'o'], 2⟩ := by
  constructor
  · have h := (c3_completion ⟨['l'], 1⟩ [['l', 's']] (by decide)).2.1 ['l', 's'] rfl
    simpa using h
  · have h := ((c3_completion ⟨['f'], 1⟩ [['f', 'o', 'o'], ['f', 'o', 'b']]
      (by decide)).2.2 ['f', 'o', 'o'] ['f', 'o', 'b'] [] rfl).1 (by decide)
    simpa using h

/-- C5: every line-editor transition preserves `cursor ≤ length buffer`,
and `Backspace` at cursor 0, `MoveLeft` at cursor 0 and `MoveRight` at
the buffer end leave the state unchanged. -/
theorem c5_editor_invariant (s : EditState) (k : Key)
    (h : s.cursor ≤ s.buf.length) :
    (edit_step s k).cursor ≤ (edit_step s k).buf.length
    ∧ (s.cursor = 0 → edit_step s .backspace = s)
    ∧ (s.cursor = 0 → edit_step s .moveLeft = s)
    ∧ (s.cursor = s.buf.length → edit_step s .moveRight = s) := by
  refine ⟨?_, fun h0 => by simp [edit_step, h0], fun h0 => by simp [edit_step, h0],
    fun h0 => by simp [edit_step, h0]⟩
  cases k with
  | insert c =>
    by_cases hp : isprintC c = true
    · have hlen := List.length_insertIdx (a := c) _ s.buf h
      simp only [edit_step, if_pos hp]
      omega
    · simpa [edit_step, hp] using h
  | backspace =>
    by_cases hc : s.cursor > 0
    · have hlt : s.cursor - 1 < s.buf.length := by omega
      have hlen := List.length_eraseIdx_add_one hlt
      simp only [edit_step, if_pos hc]
      omega
    · simpa [edit_step, hc] using h
  | moveLeft =>
    by_cases hc : s.cursor > 0
    · simp only [edit_step, if_pos hc]
      omega
    · simpa [edit_step, hc] using h
  | moveRight =>
    by_cases hc : s.cursor < s.buf.length
    · simp only [edit_step, if_pos hc]
      omega
    · simpa [edit_step, hc] using h
  | complete ms =>
    by_cases hb : s.buf = []
    · simpa [edit_step, hb] using h
    · match ms with
      | [] => simpa [edit_step, hb] using h
      | [m] => simp [edit_step, hb]
      | m1 :: m2 :: t2 =>
        by_cases hl : lcp_ (m1 :: m2 :: t2) ≠ s.buf
        · simp [edit_step, hb, hl]
        · simpa [edit_step, hb, hl] using h
  | submit => simpa [edit_step] using h

/-- C7: `run_builtin` leaves the process's stream targets as it found
them on every exit path — including the `exit` builtin, whose state is
taken just before `exit(0)` — whether or not redirection was requested
and whether or not the builtin wrote anything. -/
theorem c7_builtin_restores_streams (cmd : Command) (o : Oracle) (s : IOSt)
    (h1 : cmd.args ≠ []) (_h2 : isBuiltinName cmd.args.headI = true)
    (_h3 : cmd.redirect_stdout = true ∨ cmd.redirect_stderr = true) :
    (run_builtin_io cmd o s).1 = s := by
  have hr := restore_apply cmd o s
  simp only [run_builtin_io, if_neg h1]
  split_ifs <;> simpa using hr

/-- C7 witness: `echo hi > f` with a successfully opened target. -/
theorem c7_builtin_restores_streams_witness :
    (run_builtin_io ⟨[['e', 'c', 'h', 'o'], ['h', 'i']], true, ['f'], false,
        false, [], false⟩ ⟨some 5, none⟩ ⟨1, 2⟩).1 = ⟨1, 2⟩ :=
  c7_builtin_restores_streams _ _ _ (by decide) (by decide) (Or.inl rfl)

/-- Case analysis on the `kill` builtin: it always lets the shell
continue, and whenever `kill(2)` is actually called its failure is what
sets the error report. -/
lemma kill_builtin_cases (args : List (List Char)) (ok : Bool) :
    (kill_builtin args ok).continues = true
    ∧ ∀ p, (kill_builtin args ok).sent = some p →
        (kill_builtin args ok).errorReported = !ok := by
  rcases args with _ | ⟨a0, args2⟩
  · exact ⟨rfl, by simp [kill_builtin]⟩
  rcases args2 with _ | ⟨a1, rest⟩
  · exact ⟨rfl, by simp [kill_builtin]⟩
  simp only [kill_builtin]
  rw [if_neg (by simp)]
  rcases h1 : stoi a1 with _ | pid
  · simp
  rcases rest with _ | ⟨a2, rest2⟩
  · simp
  rcases rest2 with _ | ⟨a3, rest3⟩
  · rcases h2 : stoi a2 with _ | sg <;> simp [h2]
  · simp

/-- C8, counterexample: `kill 12x` has a non-numeric pid argument, yet
the shell reports no error and sends `SIGTERM` to pid 12, because
`stoi` accepts a numeric prefix. -/
theorem c8_counterexample :
    isNumericArg ['1', '2', 'x'] = false ∧
      kill_builtin [['k', 'i', 'l', 'l'], ['1', '2', 'x']] true =
        ⟨some (12, 15), false, true⟩ := by
  constructor
  · decide
  · rfl

/-- C8, amended: when the pid argument (or the signal argument, when
exactly one is given) fails integer parsing — no digits after optional
whitespace and sign, or a value outside `int` range — the shell reports
an invalid-argument error, sends no signal, and continues; and delivery
failure of a parsed signal is reported but non-fatal. -/
theorem c8_kill_errors (a0 a1 : List Char) (rest : List (List Char)) (ok : Bool) :
    (stoi a1 = none → kill_builtin (a0 :: a1 :: rest) ok = ⟨none, true, true⟩)
    ∧ (∀ a2, rest = [a2] → stoi a2 = none →
        kill_builtin (a0 :: a1 :: rest) ok = ⟨none, true, true⟩)
    ∧ (∀ args : List (List Char), (kill_builtin args ok).continues = true)
    ∧ ∀ p, (kill_builtin (a0 :: a1 :: rest) false).sent = some p →
        (kill_builtin (a0 :: a1 :: rest) false).errorReported = true := by
  refine ⟨fun h => ?_, fun a2 hrest h => ?_, fun args => (kill_builtin_cases args ok).1,
    fun p hp => by simpa using (kill_builtin_cases (a0 :: a1 :: rest) false).2 p hp⟩
  · simp only [kill_builtin]
    rw [if_neg (by simp), h]
  · subst hrest
    simp only [kill_builtin]
    rw [if_neg (by simp)]
    rcases h1 : stoi a1 with _ | pid
    · rfl
    · rw [h]

/-- C8 witness: `kill x` reports an error, sends nothing, continues. -/
theorem c8_kill_errors_witness :
    kill_builtin [['k', 'i', 'l', 'l'], ['x']] true = ⟨none, true, true⟩ :=
  (c8_kill_errors ['k', 'i', 'l', 'l'] ['x'] [] true).1 (by decide)

/-- C5 witness: the invariant and the no-op laws at a concrete state. -/
theorem c5_editor_invariant_witness :
    (edit_step ⟨['a'], 0⟩ .backspace).cursor ≤
        (edit_step ⟨['a'], 0⟩ .backspace).buf.length
      ∧ ((⟨['a'], 0⟩ : EditState).cursor = 0 →
          edit_step ⟨['a'], 0⟩ .backspace = ⟨['a'], 0⟩)
      ∧ ((⟨['a'], 0⟩ : EditState).cursor = 0 →
          edit_step ⟨['a'], 0⟩ .moveLeft = ⟨['a'], 0⟩)
      ∧ ((⟨['a'], 0⟩ : EditState).cursor = (⟨['a'], 0⟩ : EditState).buf.length →
          edit_step ⟨['a'], 0⟩ .moveRight = ⟨['a'], 0⟩) :=
  c5_editor_invariant ⟨['a'], 0⟩ .backspace (by decide)

end Fero



